import Mathlib

/-! libgit2 `src/util.h`: a shallow embedding and its verified properties.

The embedding follows the C source of `src/util.h`.

* Pointers are addresses (`Ptr := Nat`), `NULL` is address `0`.
* The ledger header `git_refcount` lives in a memory `Ptr → git_refcount`;
  the `GIT_REFCOUNT_*` statement forms become transformers of a `Machine`.
* A call through a function pointer whose body is not part of `util.h`
  (the `do_free` argument of `GIT_REFCOUNT_DEC`) is recorded as an event in
  the machine's call log: the log is what "the destructor was invoked" means.
* `short` arithmetic is arithmetic on `Int` followed by the conversion back
  to 16 bits (`toShort`); 64-bit conversions are modelled the same way.
  `unsigned` and `uint32_t` are 32 bits wide, `size_t` is 64 bits wide.
* A NUL-terminated string is the list of its characters before the
  terminator; `readChar` reads the terminator at index `strlen` and nothing
  past it. A pointer into the string is its offset from the start.
* Loops take a bound on their number of iterations; `none` is a run that has
  not returned within the bound, or a read out of bounds.
-/

namespace Libgit2

/-! ## Machine integers -/

/-- Conversion of an `int` value to `short` (16-bit two's complement). -/
def toShort (x : Int) : Int := (x + 32768) % 65536 - 32768

/-- Conversion of an integer value to `size_t` (unsigned, 64 bits). -/
def toSizeT (x : Int) : Int := x % 18446744073709551616

/-- Conversion of an integer value to `git_off_t` (signed, 64 bits). -/
def toOffT (x : Int) : Int :=
  (x + 9223372036854775808) % 18446744073709551616 - 9223372036854775808

/-! ## The ownership ledger (`git_refcount`) -/

/-- Addresses of objects (`void *`). -/
abbrev Ptr := Nat

/-- The null pointer. -/
def NULL : Ptr := 0

/-- The ledger header
`typedef struct { short refcount; void *owner; } git_refcount;`. -/
structure git_refcount where
  refcount : Int
  owner : Ptr
deriving DecidableEq, Repr

/-- One call `fn(arg)` made through a destructor of type
`git_refcount_freeptr`. -/
structure Call (F : Type) where
  fn : F
  arg : Ptr
deriving DecidableEq, Repr

/-- Memory holding a ledger header at every address, and the log of the
destructor calls made so far (oldest first). -/
structure Machine (F : Type) where
  mem : Ptr → git_refcount
  calls : List (Call F)

/-- Write a ledger header at address `r`. -/
def Machine.store {F : Type} (m : Machine F) (r : Ptr) (v : git_refcount) : Machine F :=
  { m with mem := fun q => if q = r then v else m.mem q }

/-- Source: `#define GIT_REFCOUNT_INC(r) { ((git_refcount *)(r))->refcount++; }`. -/
def GIT_REFCOUNT_INC {F : Type} (r : Ptr) (m : Machine F) : Machine F :=
  m.store r { m.mem r with refcount := toShort ((m.mem r).refcount + 1) }

/-- Source:
`#define GIT_REFCOUNT_DEC(_r, do_free) { git_refcount *r = (git_refcount *)(_r);`
`r->refcount--; if (r->refcount <= 0 && r->owner == NULL) { do_free(_r); } }`. -/
def GIT_REFCOUNT_DEC {F : Type} (_r : Ptr) (do_free : F) (m : Machine F) : Machine F :=
  let m1 := m.store _r { m.mem _r with refcount := toShort ((m.mem _r).refcount - 1) }
  if (m1.mem _r).refcount ≤ 0 ∧ (m1.mem _r).owner = NULL then
    { m1 with calls := m1.calls ++ [{ fn := do_free, arg := _r }] }
  else m1

/-- Source: `#define GIT_REFCOUNT_OWN(r, o) { ((git_refcount *)(r))->owner = o; }`. -/
def GIT_REFCOUNT_OWN {F : Type} (r : Ptr) (o : Ptr) (m : Machine F) : Machine F :=
  m.store r { m.mem r with owner := o }

/-- Source: `#define GIT_REFCOUNT_OWNER(r) (((git_refcount *)(r))->owner)`. -/
def GIT_REFCOUNT_OWNER {F : Type} (r : Ptr) (m : Machine F) : Ptr :=
  (m.mem r).owner

/-- A step taken by a holder of the object: an increment or a decrement. -/
inductive Op where
  | inc
  | dec
deriving DecidableEq, Repr

/-- Execute one holder step on the object at `r`, with destructor `d`. -/
def stepOp {F : Type} (r : Ptr) (d : F) (m : Machine F) : Op → Machine F
  | Op.inc => GIT_REFCOUNT_INC r m
  | Op.dec => GIT_REFCOUNT_DEC r d m

/-- Execute a sequence of holder steps, first to last. -/
def runOps {F : Type} (r : Ptr) (d : F) (ops : List Op) (m : Machine F) : Machine F :=
  ops.foldl (stepOp r d) m

/-- Execute `n` successive `GIT_REFCOUNT_DEC(r, d)` statements. -/
def decN {F : Type} (r : Ptr) (d : F) : Nat → Machine F → Machine F
  | 0, m => m
  | n + 1, m => decN r d n (GIT_REFCOUNT_DEC r d m)

/-- A machine whose every header is `{refcount = c, owner = o}` and whose call
log is empty. -/
def freshMachine (c : Int) (o : Ptr) : Machine Nat :=
  { mem := fun _ => { refcount := c, owner := o }, calls := [] }

/-! ## `git__is_sizet` -/

/-- Source: `size_t r = (size_t)p; return p == (git_off_t)r;` with `git_off_t`
a signed and `size_t` an unsigned 64-bit type. The result is the C truth value
of the comparison. -/
def git__is_sizet (p : Int) : Int :=
  let r := toSizeT p
  if p = toOffT r then 1 else 0

/-! ## The ordered-array kernel (`git__bsearch`, `git__tsort`)

`util.h` only declares these functions (`extern`); their bodies are in a file
that is not part of the sources at hand. -/

/-- Modelled from the spec: the value of the error code `GIT_ENOTFOUND`, which
`util.h` uses but does not define. The spec only requires "not found" to be an
outcome distinct from "found" (`0`); `-3` is the value libgit2 gives it. -/
def GIT_ENOTFOUND : Int := -3

/-- Modelled from the spec: the body of the binary search, which `util.h` only
declares. "Classic binary search narrowing an [lo, hi) window by evaluating the
comparator against the midpoint"; a match returns the midpoint, an empty window
returns "not found" with the insertion position `lo`. `cmp e` is the
comparator applied to the key and the element `e`. The first argument bounds
the number of iterations. -/
def bsearchLoop {α : Type} (array : List α) (cmp : α → Int) : Nat → Nat → Nat → Int × Nat
  | 0, lo, _ => (GIT_ENOTFOUND, lo)
  | fuel + 1, lo, hi =>
    if lo < hi then
      let mid := lo + (hi - lo) / 2
      match array[mid]? with
      | none => (GIT_ENOTFOUND, lo)
      | some e =>
        if cmp e = 0 then (0, mid)
        else if 0 < cmp e then bsearchLoop array cmp fuel (mid + 1) hi
        else bsearchLoop array cmp fuel lo mid
    else (GIT_ENOTFOUND, lo)

/-- Modelled from the spec: `git__bsearch(array, array_len, key, compare,
position)`, declared in `util.h` without a body. The result is the pair of the
return code and the value stored in `*position`; `array_len` is the length of
the list. -/
def git__bsearch {α κ : Type} (array : List α) (key : κ) (compare : κ → α → Int) : Int × Nat :=
  bsearchLoop array (fun e => compare key e) array.length 0 array.length

/-- Modelled from the spec: `git__bsearch_r`, declared in `util.h` without a
body: the same search with the opaque `payload` threaded through to the
comparator unchanged. -/
def git__bsearch_r {α κ π : Type} (array : List α) (key : κ)
    (compare_r : κ → α → π → Int) (payload : π) : Int × Nat :=
  bsearchLoop array (fun e => compare_r key e payload) array.length 0 array.length

/-- Modelled from the spec: the "simple insertion pass" of the sort: put `x`
in front of the first element that does not compare below it. -/
def insertSorted {α : Type} (cmp : α → α → Int) (x : α) : List α → List α
  | [] => [x]
  | y :: ys => if cmp x y ≤ 0 then x :: y :: ys else y :: insertSorted cmp x ys

/-- Modelled from the spec: insertion sort, the fallback for small subarrays. -/
def insertionPass {α : Type} (cmp : α → α → Int) (l : List α) : List α :=
  l.foldl (fun acc x => insertSorted cmp x acc) []

/-- Modelled from the spec: the size below which a subarray is sorted by the
insertion pass ("a fixed threshold, e.g. ~8–16 elements"). -/
def TSORT_SMALL : Nat := 8

/-- Modelled from the spec: the divide step of the sort, which `util.h` only
declares: subarrays below the threshold get the insertion pass; otherwise a
three-way partition around a pivot groups the elements below, equal to and
above the pivot, and only the outer two groups are sorted further. The first
argument bounds the recursion depth. -/
def tsortLoop {α : Type} (cmp : α → α → Int) (small : Nat) : Nat → List α → List α
  | 0, l => insertionPass cmp l
  | fuel + 1, l =>
    if l.length < small then insertionPass cmp l
    else
      match l with
      | [] => []
      | p :: _ =>
        tsortLoop cmp small fuel (l.filter (fun x => decide (cmp x p < 0)))
          ++ l.filter (fun x => decide (cmp x p = 0))
          ++ tsortLoop cmp small fuel (l.filter (fun x => decide (0 < cmp x p)))

/-- Modelled from the spec: `git__tsort(dst, size, cmp)`, declared in `util.h`
without a body; the result is the content of `dst` afterwards. -/
def git__tsort {α : Type} (dst : List α) (cmp : α → α → Int) : List α :=
  tsortLoop cmp TSORT_SMALL dst.length dst

/-- Modelled from the spec: `git__tsort_r(dst, size, cmp, payload)`, declared
in `util.h` without a body: the same sort with the opaque `payload` threaded
through to the comparator unchanged. -/
def git__tsort_r {α π : Type} (dst : List α) (cmp : α → α → π → Int) (payload : π) : List α :=
  tsortLoop (fun a b => cmp a b payload) TSORT_SMALL dst.length dst

/-- The comparator contract: a tri-state result that is consistent when the
arguments are swapped, and whose "not above" relation is transitive (a strict
weak ordering). -/
structure StrictWeakOrder {α : Type} (cmp : α → α → Int) : Prop where
  swap : ∀ a b, cmp a b < 0 ↔ 0 < cmp b a
  trans : ∀ a b c, cmp a b ≤ 0 → cmp b c ≤ 0 → cmp a c ≤ 0

/-- Every adjacent pair `(a, b)` of the array satisfies `cmp(a, b) <= 0`. -/
def SortedBy {α : Type} (cmp : α → α → Int) (l : List α) : Prop :=
  List.Chain' (fun a b => cmp a b ≤ 0) l

/-- The array after inserting `key` at index `pos`. -/
def insertAt {α : Type} (l : List α) (pos : Nat) (key : α) : List α :=
  l.take pos ++ key :: l.drop pos

/-- The integer-key comparator `a - b` used in the scenarios. -/
def intCmp (a b : Int) : Int := a - b

/-! ## 32-bit rotation (`git__rotl`) -/

/-- Source (the non-MSVC branch): `#define git__rotl(v, s)`
`(uint32_t)(((uint32_t)(v) << (s)) | ((uint32_t)(v) >> (32 - (s))))`.
Every `uint32_t` result is reduced modulo `2^32`; the shift counts are those
of the source, which C defines for `1 <= s <= 31`. -/
def git__rotl (v s : Nat) : Nat :=
  ((((v % 4294967296) <<< s) % 4294967296) ||| ((v % 4294967296) >>> (32 - s))) % 4294967296

/-! ## Hex digits (`from_hex`, `git__fromhex`, `git__ishex`) -/

set_option maxHeartbeats 4000000 in
/-- Source: `static signed char from_hex[] = { ... };`, the 256 entries in
order. -/
def from_hex : List Int := [
  -1, -1, -1, -1, -1, -1, -1, -1, -1, -1, -1, -1, -1, -1, -1, -1,
  -1, -1, -1, -1, -1, -1, -1, -1, -1, -1, -1, -1, -1, -1, -1, -1,
  -1, -1, -1, -1, -1, -1, -1, -1, -1, -1, -1, -1, -1, -1, -1, -1,
  0, 1, 2, 3, 4, 5, 6, 7, 8, 9, -1, -1, -1, -1, -1, -1,
  -1, 10, 11, 12, 13, 14, 15, -1, -1, -1, -1, -1, -1, -1, -1, -1,
  -1, -1, -1, -1, -1, -1, -1, -1, -1, -1, -1, -1, -1, -1, -1, -1,
  -1, 10, 11, 12, 13, 14, 15, -1, -1, -1, -1, -1, -1, -1, -1, -1,
  -1, -1, -1, -1, -1, -1, -1, -1, -1, -1, -1, -1, -1, -1, -1, -1,
  -1, -1, -1, -1, -1, -1, -1, -1, -1, -1, -1, -1, -1, -1, -1, -1,
  -1, -1, -1, -1, -1, -1, -1, -1, -1, -1, -1, -1, -1, -1, -1, -1,
  -1, -1, -1, -1, -1, -1, -1, -1, -1, -1, -1, -1, -1, -1, -1, -1,
  -1, -1, -1, -1, -1, -1, -1, -1, -1, -1, -1, -1, -1, -1, -1, -1,
  -1, -1, -1, -1, -1, -1, -1, -1, -1, -1, -1, -1, -1, -1, -1, -1,
  -1, -1, -1, -1, -1, -1, -1, -1, -1, -1, -1, -1, -1, -1, -1, -1,
  -1, -1, -1, -1, -1, -1, -1, -1, -1, -1, -1, -1, -1, -1, -1, -1,
  -1, -1, -1, -1, -1, -1, -1, -1, -1, -1, -1, -1, -1, -1, -1, -1]

/-- Source: `return from_hex[(unsigned char) h];`. The cast to `unsigned char`
is reduction modulo 256; a read outside the table gives `none`. -/
def git__fromhex (h : Int) : Option Int :=
  from_hex[(h % 256).toNat]?

/-- Read `s[i]` of the NUL-terminated string whose characters before the
terminator are `str`: the terminator `0` sits at index `strlen`, and there is
nothing to read past it. -/
def readChar (str : List Int) (i : Nat) : Option Int :=
  if i < str.length then str[i]?
  else if i = str.length then some 0
  else none

/-- Source: `unsigned i; for (i=0; i<strlen(str); i++)`
`if (git__fromhex(str[i]) < 0) return 0; return 1;`, from the state of the
counter `i` on. `unsigned` is 32 bits wide, so `i++` is taken modulo `2^32`;
`strlen` is a `size_t`. The first argument bounds the number of iterations;
`none` is a run that has not returned (or a read out of bounds). -/
def git__ishexLoop (str : List Int) : Nat → Nat → Option Int
  | 0, _ => none
  | fuel + 1, i =>
    if i < str.length then
      match readChar str i with
      | none => none
      | some c =>
        match git__fromhex c with
        | none => none
        | some v =>
          if v < 0 then some 0
          else git__ishexLoop str fuel ((i + 1) % 4294967296)
    else some 1

/-- Source: `git__ishex(str)`, run for at most `fuel` iterations of its loop. -/
def git__ishex (str : List Int) (fuel : Nat) : Option Int :=
  git__ishexLoop str fuel 0

/-- The character is one of `0-9`, `a-f`, `A-F`. -/
def isHexChar (c : Int) : Prop :=
  (48 ≤ c ∧ c ≤ 57) ∨ (97 ≤ c ∧ c ≤ 102) ∨ (65 ≤ c ∧ c ≤ 70)

/-- A string of `2^32` characters `'0'` followed by the character `'g'`. -/
def longHexString : List Int := List.replicate 4294967296 48 ++ [103]

/-! ## Bit masks (`git__size_t_bitmask`, `git__size_t_powerof2`) -/

/-- Source: `v--; v |= v >> 1; v |= v >> 2; v |= v >> 4; v |= v >> 8;`
`v |= v >> 16; return v;` on a 64-bit `size_t`. -/
def git__size_t_bitmask (v : Nat) : Nat :=
  let v := (v + 18446744073709551616 - 1) % 18446744073709551616
  let v := v ||| (v >>> 1)
  let v := v ||| (v >>> 2)
  let v := v ||| (v >>> 4)
  let v := v ||| (v >>> 8)
  let v := v ||| (v >>> 16)
  v

/-- Source: `return git__size_t_bitmask(v) + 1;` on a 64-bit `size_t`. -/
def git__size_t_powerof2 (v : Nat) : Nat :=
  (git__size_t_bitmask v + 1) % 18446744073709551616

/-! ## Lines (`git__next_line`) -/

/-- Source: `while (*s && *s != '\n') s++;`, from offset `p` on; the result is
the offset at which the loop stops. The first argument bounds the number of
iterations. -/
def nextLineSkipText (str : List Int) : Nat → Nat → Option Nat
  | 0, _ => none
  | fuel + 1, p =>
    match readChar str p with
    | none => none
    | some c => if c ≠ 0 ∧ c ≠ 10 then nextLineSkipText str fuel (p + 1) else some p

/-- Source: `while (*s == '\n' || *s == '\r') s++;`, from offset `p` on. -/
def nextLineSkipBreaks (str : List Int) : Nat → Nat → Option Nat
  | 0, _ => none
  | fuel + 1, p =>
    match readChar str p with
    | none => none
    | some c => if c = 10 ∨ c = 13 then nextLineSkipBreaks str fuel (p + 1) else some p

/-- Source: `git__next_line(s)`: the two loops in sequence, `return s;`. The
result is the offset of the returned pointer from `s`. Each loop gets as many
iterations as there are characters to read, terminator included. -/
def git__next_line (str : List Int) : Option Nat :=
  match nextLineSkipText str (str.length + 1) 0 with
  | none => none
  | some p => nextLineSkipBreaks str (str.length + 1) p

/-! ## Ledger: basic facts -/

theorem toShort_of_range (x : Int) (h1 : -32768 ≤ x) (h2 : x ≤ 32767) : toShort x = x := by
  unfold toShort
  omega

theorem toShort_range (x : Int) : -32768 ≤ toShort x ∧ toShort x ≤ 32767 := by
  unfold toShort
  omega

@[simp] theorem store_mem_same {F : Type} (m : Machine F) (r : Ptr) (v : git_refcount) :
    (m.store r v).mem r = v := by
  simp [Machine.store]

theorem store_mem_other {F : Type} (m : Machine F) (r q : Ptr) (v : git_refcount)
    (h : q ≠ r) : (m.store r v).mem q = m.mem q := by
  simp [Machine.store, h]

@[simp] theorem store_calls {F : Type} (m : Machine F) (r : Ptr) (v : git_refcount) :
    (m.store r v).calls = m.calls := rfl

theorem dec_refcount {F : Type} (m : Machine F) (r : Ptr) (d : F) :
    ((GIT_REFCOUNT_DEC r d m).mem r).refcount = toShort ((m.mem r).refcount - 1) := by
  unfold GIT_REFCOUNT_DEC
  simp only [store_mem_same]
  split <;> simp

theorem dec_owner {F : Type} (m : Machine F) (r : Ptr) (d : F) :
    ((GIT_REFCOUNT_DEC r d m).mem r).owner = (m.mem r).owner := by
  unfold GIT_REFCOUNT_DEC
  simp only [store_mem_same]
  split <;> simp

theorem dec_calls {F : Type} (m : Machine F) (r : Ptr) (d : F) :
    (GIT_REFCOUNT_DEC r d m).calls =
      if toShort ((m.mem r).refcount - 1) ≤ 0 ∧ (m.mem r).owner = NULL
      then m.calls ++ [⟨d, r⟩] else m.calls := by
  unfold GIT_REFCOUNT_DEC
  simp only [store_mem_same]
  split <;> simp

theorem inc_refcount {F : Type} (m : Machine F) (r : Ptr) :
    ((GIT_REFCOUNT_INC r m).mem r).refcount = toShort ((m.mem r).refcount + 1) := by
  simp [GIT_REFCOUNT_INC]

theorem inc_owner {F : Type} (m : Machine F) (r : Ptr) :
    ((GIT_REFCOUNT_INC r m).mem r).owner = (m.mem r).owner := by
  simp [GIT_REFCOUNT_INC]

theorem inc_calls {F : Type} (m : Machine F) (r : Ptr) :
    (GIT_REFCOUNT_INC r m).calls = m.calls := by
  simp [GIT_REFCOUNT_INC]

theorem append_singleton_ne_self {A : Type} (l : List A) (a : A) : l ++ [a] ≠ l := by
  intro h
  have := congrArg List.length h
  simp at this

/-! ## Ledger: the claims -/

/-- C1: for a ledger state with refcount `c > -32768` (a `short`) and owner
`o`, `GIT_REFCOUNT_DEC` stores `c - 1`, leaves the owner unchanged, and appends
exactly one call `do_free(r)` to the call log if and only if `c - 1 <= 0` and
`o` is `NULL`; otherwise the call log is unchanged. -/
theorem refcount_dec_contract {F : Type} (m : Machine F) (r : Ptr) (d : F)
    (hmin : -32768 < (m.mem r).refcount) (hmax : (m.mem r).refcount ≤ 32767) :
    ((GIT_REFCOUNT_DEC r d m).mem r).refcount = (m.mem r).refcount - 1 ∧
    ((GIT_REFCOUNT_DEC r d m).mem r).owner = (m.mem r).owner ∧
    (((m.mem r).refcount - 1 ≤ 0 ∧ (m.mem r).owner = NULL) ↔
      (GIT_REFCOUNT_DEC r d m).calls = m.calls ++ [⟨d, r⟩]) ∧
    (¬((m.mem r).refcount - 1 ≤ 0 ∧ (m.mem r).owner = NULL) ↔
      (GIT_REFCOUNT_DEC r d m).calls = m.calls) := by
  have hs : toShort ((m.mem r).refcount - 1) = (m.mem r).refcount - 1 :=
    toShort_of_range _ (by omega) (by omega)
  refine ⟨by rw [dec_refcount, hs], dec_owner m r d, ?_, ?_⟩
  · rw [dec_calls, hs]
    by_cases hc : (m.mem r).refcount - 1 ≤ 0 ∧ (m.mem r).owner = NULL
    · simp [hc]
    · simp only [hc, if_false, false_iff]
      exact fun h => append_singleton_ne_self _ _ h.symm
  · rw [dec_calls, hs]
    by_cases hc : (m.mem r).refcount - 1 ≤ 0 ∧ (m.mem r).owner = NULL
    · simp only [hc, if_true, not_true, false_iff, and_self]
      exact append_singleton_ne_self _ _
    · simp [hc]

/-- Witness of C1: the last holder of an unowned object (refcount 1) lets go;
the count becomes 0 and the destructor is called once. -/
theorem refcount_dec_contract_witness :
    ((GIT_REFCOUNT_DEC 8 5 (freshMachine 1 NULL)).mem 8).refcount = 1 - 1 ∧
    (GIT_REFCOUNT_DEC 8 5 (freshMachine 1 NULL)).calls = [] ++ [⟨5, 8⟩] :=
  ⟨(refcount_dec_contract (freshMachine 1 NULL) 8 5 (by decide) (by decide)).1,
   (refcount_dec_contract (freshMachine 1 NULL) 8 5 (by decide) (by decide)).2.2.1.mp
     (by decide)⟩

/-- C2, as stated, fails: an object with refcount 0 and owner 7 has its
ownership released, and no destructor call is made. -/
theorem own_release_counterexample :
    ((freshMachine 0 7).mem 8).refcount ≤ 0 ∧ ((freshMachine 0 7).mem 8).owner ≠ NULL ∧
    (GIT_REFCOUNT_OWN 8 NULL (freshMachine 0 7)).calls = [] := by
  decide

/-- C2, amended: releasing ownership of an object whose refcount is already
`<= 0` (whoever its owner was) makes no destructor call; it only clears the owner, leaving refcount as
it was, so that the object is eligible; the destructor is called by the next
`GIT_REFCOUNT_DEC` (refcount above the `short` minimum). -/
theorem own_release_defers {F : Type} (m : Machine F) (r : Ptr) (d : F)
    (hc : (m.mem r).refcount ≤ 0) (hmin : -32768 < (m.mem r).refcount) :
    (GIT_REFCOUNT_OWN r NULL m).calls = m.calls ∧
    ((GIT_REFCOUNT_OWN r NULL m).mem r).refcount = (m.mem r).refcount ∧
    ((GIT_REFCOUNT_OWN r NULL m).mem r).owner = NULL ∧
    (GIT_REFCOUNT_DEC r d (GIT_REFCOUNT_OWN r NULL m)).calls = m.calls ++ [⟨d, r⟩] := by
  have h1 : ((GIT_REFCOUNT_OWN r NULL m).mem r).refcount = (m.mem r).refcount := by
    simp [GIT_REFCOUNT_OWN]
  have h2 : ((GIT_REFCOUNT_OWN r NULL m).mem r).owner = NULL := by
    simp [GIT_REFCOUNT_OWN]
  have h3 : (GIT_REFCOUNT_OWN r NULL m).calls = m.calls := by
    simp [GIT_REFCOUNT_OWN]
  refine ⟨h3, h1, h2, ?_⟩
  rw [dec_calls, h1, h2, h3,
    toShort_of_range ((m.mem r).refcount - 1) (by omega) (by omega)]
  have : (m.mem r).refcount - 1 ≤ 0 := by omega
  simp [this]

/-- Witness of amended C2: refcount 0, owner 7. -/
theorem own_release_defers_witness :
    (GIT_REFCOUNT_OWN 8 NULL (freshMachine 0 7)).calls = [] ∧
    ((GIT_REFCOUNT_OWN 8 NULL (freshMachine 0 7)).mem 8).refcount = 0 ∧
    ((GIT_REFCOUNT_OWN 8 NULL (freshMachine 0 7)).mem 8).owner = NULL ∧
    (GIT_REFCOUNT_DEC 8 5 (GIT_REFCOUNT_OWN 8 NULL (freshMachine 0 7))).calls
      = [] ++ [⟨5, 8⟩] :=
  own_release_defers (freshMachine 0 7) 8 5 (by decide) (by decide)

theorem decN_owned_calls {F : Type} (r : Ptr) (d : F) (n : Nat) :
    ∀ m : Machine F, (m.mem r).owner ≠ NULL → (decN r d n m).calls = m.calls := by
  induction n with
  | zero => intro m _; rfl
  | succ n ih =>
    intro m ho
    have hstep : (GIT_REFCOUNT_DEC r d m).calls = m.calls := by
      rw [dec_calls]; simp [ho]
    have hown : ((GIT_REFCOUNT_DEC r d m).mem r).owner ≠ NULL := by
      rw [dec_owner]; exact ho
    show (decN r d n (GIT_REFCOUNT_DEC r d m)).calls = m.calls
    rw [ih _ hown, hstep]

/-- C3 (owner veto): after `GIT_REFCOUNT_OWN(r, o)` with `o` not `NULL`, a run
of `N` decrements makes no destructor call, whatever the starting refcount and
however far down the count goes. -/
theorem owner_veto {F : Type} (m : Machine F) (r o : Ptr) (d : F) (N : Nat)
    (ho : o ≠ NULL) :
    (decN r d N (GIT_REFCOUNT_OWN r o m)).calls = m.calls := by
  have hown : ((GIT_REFCOUNT_OWN r o m).mem r).owner ≠ NULL := by
    simpa [GIT_REFCOUNT_OWN] using ho
  rw [decN_owned_calls r d N _ hown]
  simp [GIT_REFCOUNT_OWN]

/-- Witness of C3: refcount 1, owner 7 claimed, five decrements. -/
theorem owner_veto_witness :
    (decN 8 5 5 (GIT_REFCOUNT_OWN 8 7 (freshMachine 1 NULL))).calls
      = (freshMachine 1 NULL).calls :=
  owner_veto (freshMachine 1 NULL) 8 7 5 5 (by decide)

theorem runOps_append_one {F : Type} (r : Ptr) (d : F) (init : List Op) (op : Op)
    (m : Machine F) :
    runOps r d (init ++ [op]) m = stepOp r d (runOps r d init m) op := by
  simp [runOps, List.foldl_append]

/-- While the stored count stays positive after every step, the stored count
is the number of increments minus the number of decrements, the owner stays
`NULL` and no destructor call is made. -/
theorem runOps_positive {F : Type} (r : Ptr) (d : F) (m : Machine F)
    (h0 : (m.mem r).refcount = 0) (hown : (m.mem r).owner = NULL) (ops : List Op) :
    (∀ k, 0 < k → k ≤ ops.length → 0 < ((runOps r d (ops.take k) m).mem r).refcount) →
    ((runOps r d ops m).mem r).refcount = (ops.count Op.inc : Int) - ops.count Op.dec ∧
    ((runOps r d ops m).mem r).refcount ≤ 32767 ∧
    ((runOps r d ops m).mem r).owner = NULL ∧
    (runOps r d ops m).calls = m.calls := by
  induction ops using List.reverseRecOn with
  | nil =>
    intro _
    simp [runOps, h0, hown]
  | append_singleton init op ih =>
    intro hpos
    have hinit : ∀ k, 0 < k → k ≤ init.length →
        0 < ((runOps r d (init.take k) m).mem r).refcount := by
      intro k hk hk2
      have := hpos k hk (by simp; omega)
      rwa [List.take_append_of_le_length hk2] at this
    obtain ⟨hc, hmax, ho, hcalls⟩ := ih hinit
    have hlast := hpos (init ++ [op]).length (by simp) (le_refl _)
    rw [List.take_length, runOps_append_one] at hlast
    have hnn : (0 : Int) ≤ ((runOps r d init m).mem r).refcount := by
      rw [hc]
      rcases List.eq_nil_or_concat init with h | ⟨l, a, h⟩
      · subst h; simp
      · have := hinit init.length (by subst h; simp) (le_refl _)
        rw [List.take_length, hc] at this
        omega
    rw [runOps_append_one]
    cases op with
    | inc =>
      simp only [stepOp] at hlast ⊢
      rw [inc_refcount] at hlast
      have hr := toShort_range (((runOps r d init m).mem r).refcount + 1)
      have hle : ((runOps r d init m).mem r).refcount + 1 ≤ 32767 := by
        by_contra hcon
        have : ((runOps r d init m).mem r).refcount = 32767 := by omega
        rw [this] at hlast
        revert hlast
        decide
      have hs := toShort_of_range (((runOps r d init m).mem r).refcount + 1)
        (by omega) hle
      refine ⟨?_, ?_, ?_, ?_⟩
      · rw [inc_refcount, hs, hc]
        simp [List.count_append]
        omega
      · rw [inc_refcount]; exact hr.2
      · rw [inc_owner]; exact ho
      · rw [inc_calls]; exact hcalls
    | dec =>
      simp only [stepOp] at hlast ⊢
      rw [dec_refcount] at hlast
      have hr := toShort_range (((runOps r d init m).mem r).refcount - 1)
      have hs := toShort_of_range (((runOps r d init m).mem r).refcount - 1)
        (by omega) (by omega)
      refine ⟨?_, ?_, ?_, ?_⟩
      · rw [dec_refcount, hs, hc]
        simp [List.count_append]
        omega
      · rw [dec_refcount]; exact hr.2
      · rw [dec_owner]; exact ho
      · rw [dec_calls, hcalls]
        have : ¬ toShort (((runOps r d init m).mem r).refcount - 1) ≤ 0 := by omega
        simp [this]

/-- C4, as stated, fails: from refcount 0 with the owner never set, the
interleaving INC, DEC, INC, DEC of two increments and two decrements makes two
destructor calls, not one. -/
theorem lifecycle_counterexample :
    [Op.inc, Op.dec, Op.inc, Op.dec].count Op.inc = 2 ∧
    [Op.inc, Op.dec, Op.inc, Op.dec].count Op.dec = 2 ∧
    (runOps 8 5 [Op.inc, Op.dec, Op.inc, Op.dec] (freshMachine 0 NULL)).calls
      = [⟨5, 8⟩, ⟨5, 8⟩] := by
  decide

/-- C4, amended: for an object whose owner is never set, starting from refcount
0, for every `N >= 1` and every interleaving of `N` increments and `N`
decrements in which the count is above 0 after every step but the last, exactly
one destructor call is made over the whole run, and it is made by the last
step, which is a decrement bringing the count to 0. -/
theorem lifecycle_single_destruction {F : Type} (m : Machine F) (r : Ptr) (d : F)
    (ops : List Op) (N : Nat) (hN : 1 ≤ N)
    (hinc : ops.count Op.inc = N) (hdec : ops.count Op.dec = N)
    (h0 : (m.mem r).refcount = 0) (hown : (m.mem r).owner = NULL)
    (hpos : ∀ k, 0 < k → k < ops.length →
      0 < ((runOps r d (ops.take k) m).mem r).refcount) :
    ∃ init, ops = init ++ [Op.dec] ∧
      (runOps r d init m).calls = m.calls ∧
      (runOps r d ops m).calls = m.calls ++ [⟨d, r⟩] ∧
      ((runOps r d ops m).mem r).refcount = 0 := by
  rcases List.eq_nil_or_concat ops with h | ⟨init, op, h⟩
  · subst h
    simp at hinc
    omega
  · rw [List.concat_eq_append] at h
    subst h
    have hinit : ∀ k, 0 < k → k ≤ init.length →
        0 < ((runOps r d (init.take k) m).mem r).refcount := by
      intro k hk hk2
      have := hpos k hk (by simp; omega)
      rwa [List.take_append_of_le_length hk2] at this
    obtain ⟨hc, hmax, ho, hcalls⟩ := runOps_positive r d m h0 hown init hinit
    have hlen : 0 < init.length := by
      rcases List.eq_nil_or_concat init with h | ⟨l, a, h⟩
      · subst h
        cases op <;> simp at hinc hdec <;> omega
      · subst h; simp
    have hp := hinit init.length hlen (le_refl _)
    rw [List.take_length, hc] at hp
    cases op with
    | inc =>
      simp [List.count_append] at hinc hdec
      omega
    | dec =>
      simp [List.count_append] at hinc hdec
      have hone : ((runOps r d init m).mem r).refcount = 1 := by rw [hc]; omega
      refine ⟨init, rfl, hcalls, ?_, ?_⟩
      · rw [runOps_append_one]
        simp only [stepOp]
        rw [dec_calls, hone, ho, hcalls]
        simp [toShort]
      · rw [runOps_append_one]
        simp only [stepOp]
        rw [dec_refcount, hone]
        simp [toShort]

/-- Witness of amended C4: two increments followed by two decrements. -/
theorem lifecycle_single_destruction_witness :
    ∃ init, [Op.inc, Op.inc, Op.dec, Op.dec] = init ++ [Op.dec] ∧
      (runOps 8 5 init (freshMachine 0 NULL)).calls = (freshMachine 0 NULL).calls ∧
      (runOps 8 5 [Op.inc, Op.inc, Op.dec, Op.dec] (freshMachine 0 NULL)).calls
        = (freshMachine 0 NULL).calls ++ [⟨5, 8⟩] ∧
      ((runOps 8 5 [Op.inc, Op.inc, Op.dec, Op.dec] (freshMachine 0 NULL)).mem 8).refcount
        = 0 :=
  lifecycle_single_destruction (freshMachine 0 NULL) 8 5
    [Op.inc, Op.inc, Op.dec, Op.dec] 2 (by decide) (by decide) (by decide)
    (by decide) (by decide)
    (by
      intro k hk hk2
      have hk3 : k < 4 := hk2
      interval_cases k <;> decide)

/-- C5, as stated, fails: an object owned by identity 1 is claimed by
identity 2; the owner does not remain 1, it is overwritten with 2, and nothing
is recorded. -/
theorem own_conflict_counterexample :
    GIT_REFCOUNT_OWNER 8 (freshMachine 1 1) = 1 ∧ (1 : Ptr) ≠ NULL ∧ (2 : Ptr) ≠ NULL ∧
    GIT_REFCOUNT_OWNER 8 (GIT_REFCOUNT_OWN 8 2 (freshMachine 1 1)) = 2 ∧
    GIT_REFCOUNT_OWNER 8 (GIT_REFCOUNT_OWN 8 2 (freshMachine 1 1)) ≠ 1 ∧
    (GIT_REFCOUNT_OWN 8 2 (freshMachine 1 1)).calls = [] := by
  decide

/-- C5, amended: for an object with owner `o1` and an identity `o2` different
from `o1` (in particular both non-`NULL`), `GIT_REFCOUNT_OWN(r, o2)` makes no
check: it replaces the owner by `o2` (the header has a single owner field, so
one identity is recorded at a time) and changes nothing else: the refcount,
the other headers and the call log are as before. -/
theorem own_conflict_overwrites {F : Type} (m : Machine F) (r o2 : Ptr)
    (hne : o2 ≠ GIT_REFCOUNT_OWNER r m) :
    GIT_REFCOUNT_OWNER r (GIT_REFCOUNT_OWN r o2 m) = o2 ∧
    GIT_REFCOUNT_OWNER r (GIT_REFCOUNT_OWN r o2 m) ≠ GIT_REFCOUNT_OWNER r m ∧
    ((GIT_REFCOUNT_OWN r o2 m).mem r).refcount = (m.mem r).refcount ∧
    (∀ q, q ≠ r → (GIT_REFCOUNT_OWN r o2 m).mem q = m.mem q) ∧
    (GIT_REFCOUNT_OWN r o2 m).calls = m.calls := by
  have h : GIT_REFCOUNT_OWNER r (GIT_REFCOUNT_OWN r o2 m) = o2 := by
    simp [GIT_REFCOUNT_OWNER, GIT_REFCOUNT_OWN]
  refine ⟨h, by rw [h]; exact hne, by simp [GIT_REFCOUNT_OWN], ?_, by simp [GIT_REFCOUNT_OWN]⟩
  intro q hq
  exact store_mem_other m r q _ hq

/-- Witness of amended C5: owner 1 replaced by owner 2. -/
theorem own_conflict_overwrites_witness :
    GIT_REFCOUNT_OWNER 8 (GIT_REFCOUNT_OWN 8 2 (freshMachine 1 1)) = 2 ∧
    GIT_REFCOUNT_OWNER 8 (GIT_REFCOUNT_OWN 8 2 (freshMachine 1 1))
      ≠ GIT_REFCOUNT_OWNER 8 (freshMachine 1 1) ∧
    ((GIT_REFCOUNT_OWN 8 2 (freshMachine 1 1)).mem 8).refcount
      = ((freshMachine 1 1).mem 8).refcount ∧
    (∀ q, q ≠ 8 → (GIT_REFCOUNT_OWN 8 2 (freshMachine 1 1)).mem q = (freshMachine 1 1).mem q) ∧
    (GIT_REFCOUNT_OWN 8 2 (freshMachine 1 1)).calls = (freshMachine 1 1).calls :=
  own_conflict_overwrites (freshMachine 1 1) 8 2 (by decide)

/-- C9: for a ledger state with refcount `c < 32767` (a `short`) and any
owner, `GIT_REFCOUNT_INC` stores exactly `c + 1`, leaves the owner and every
other header unchanged and makes no destructor call, also when `c <= 0` and
the owner is set. -/
theorem refcount_inc_contract {F : Type} (m : Machine F) (r : Ptr)
    (hmin : -32768 ≤ (m.mem r).refcount) (hmax : (m.mem r).refcount < 32767) :
    ((GIT_REFCOUNT_INC r m).mem r).refcount = (m.mem r).refcount + 1 ∧
    ((GIT_REFCOUNT_INC r m).mem r).owner = (m.mem r).owner ∧
    (∀ q, q ≠ r → (GIT_REFCOUNT_INC r m).mem q = m.mem q) ∧
    (GIT_REFCOUNT_INC r m).calls = m.calls := by
  refine ⟨?_, inc_owner m r, ?_, inc_calls m r⟩
  · rw [inc_refcount, toShort_of_range _ (by omega) (by omega)]
  · intro q hq
    exact store_mem_other m r q _ hq

/-- Witness of C9: refcount -3 with owner 7 set. -/
theorem refcount_inc_contract_witness :
    ((GIT_REFCOUNT_INC 8 (freshMachine (-3) 7)).mem 8).refcount = -3 + 1 ∧
    ((GIT_REFCOUNT_INC 8 (freshMachine (-3) 7)).mem 8).owner = 7 ∧
    (∀ q, q ≠ 8 → (GIT_REFCOUNT_INC 8 (freshMachine (-3) 7)).mem q
      = (freshMachine (-3) 7).mem q) ∧
    (GIT_REFCOUNT_INC 8 (freshMachine (-3) 7)).calls = [] :=
  refcount_inc_contract (freshMachine (-3) 7) 8 (by decide) (by decide)

/-- C10: for every ledger state and every owner identity `o`,
`GIT_REFCOUNT_OWN(r, o)` leaves the refcount unchanged and
`GIT_REFCOUNT_OWNER(r)` evaluated afterwards is exactly `o`. -/
theorem own_then_owner {F : Type} (m : Machine F) (r o : Ptr) :
    ((GIT_REFCOUNT_OWN r o m).mem r).refcount = (m.mem r).refcount ∧
    GIT_REFCOUNT_OWNER r (GIT_REFCOUNT_OWN r o m) = o := by
  simp [GIT_REFCOUNT_OWNER, GIT_REFCOUNT_OWN]

/-! ## Comparator contract: consequences -/

theorem StrictWeakOrder.total {α : Type} {cmp : α → α → Int} (h : StrictWeakOrder cmp)
    (a b : α) : cmp a b ≤ 0 ∨ cmp b a ≤ 0 := by
  by_cases hab : cmp a b ≤ 0
  · exact Or.inl hab
  · right
    have : cmp b a < 0 := (h.swap b a).mpr (by omega)
    omega

theorem StrictWeakOrder.eq_swap {α : Type} {cmp : α → α → Int} (h : StrictWeakOrder cmp)
    (a b : α) (hab : cmp a b = 0) : cmp b a = 0 := by
  have h1 := h.swap a b
  have h2 := h.swap b a
  by_contra hne
  rcases lt_or_gt_of_ne hne with hlt | hgt
  · have := h2.mp hlt
    omega
  · have := h1.mpr hgt
    omega

theorem StrictWeakOrder.le_of_pos_swap {α : Type} {cmp : α → α → Int}
    (h : StrictWeakOrder cmp) (a b : α) (hab : 0 < cmp b a) : cmp a b ≤ 0 := by
  have := (h.swap a b).mpr hab
  omega

theorem SortedBy.pairwise {α : Type} {cmp : α → α → Int} (h : StrictWeakOrder cmp)
    {l : List α} (hs : SortedBy cmp l) : l.Pairwise (fun a b => cmp a b ≤ 0) := by
  haveI : IsTrans α (fun a b => cmp a b ≤ 0) := ⟨h.trans⟩
  exact List.chain'_iff_pairwise.mp hs

/-- In an array sorted under `cmp`, the sign of `cmp key ·` can only go down:
elements below the key come first, elements above it last. -/
theorem SortedBy.key_partition {α : Type} {cmp : α → α → Int} (h : StrictWeakOrder cmp)
    {l : List α} (hs : SortedBy cmp l) (key : α) :
    l.Pairwise (fun a b => (0 < cmp key b → 0 < cmp key a) ∧ (cmp key a < 0 → cmp key b < 0)) := by
  refine (SortedBy.pairwise h hs).imp ?_
  intro a b hab
  constructor
  · intro hb
    by_contra hcon
    have h1 : cmp key a ≤ 0 := by omega
    have h2 := h.trans key a b h1 hab
    omega
  · intro ha
    by_contra hcon
    have h1 : cmp b key ≤ 0 := by
      by_contra h3
      have := (h.swap key b).mpr (by omega)
      omega
    have h2 := h.trans a b key hab h1
    have h3 := (h.swap key a).mp ha
    omega

/-! ## Binary search -/

/-- The loop invariant of the search gives its result: a match at the returned
index, or no match anywhere and the returned index separates the elements below
the key from those above it. -/
theorem bsearchLoop_spec {α : Type} (l : List α) (f : α → Int)
    (hP : l.Pairwise (fun a b => (0 < f b → 0 < f a) ∧ (f a < 0 → f b < 0))) :
    ∀ (fuel lo hi : Nat), lo ≤ hi → hi ≤ l.length → hi - lo ≤ fuel →
      (∀ i e, l[i]? = some e → i < lo → 0 < f e) →
      (∀ i e, l[i]? = some e → hi ≤ i → f e < 0) →
      (∃ pos e, bsearchLoop l f fuel lo hi = (0, pos) ∧ l[pos]? = some e ∧ f e = 0) ∨
      (∃ pos, bsearchLoop l f fuel lo hi = (GIT_ENOTFOUND, pos) ∧ pos ≤ l.length ∧
        (∀ i e, l[i]? = some e → i < pos → 0 < f e) ∧
        (∀ i e, l[i]? = some e → pos ≤ i → f e < 0)) := by
  have hidx := List.pairwise_iff_getElem.mp hP
  intro fuel
  induction fuel with
  | zero =>
    intro lo hi hle hlen hfuel hlo hhi
    right
    have : lo = hi := by omega
    subst this
    exact ⟨lo, rfl, hlen, hlo, hhi⟩
  | succ fuel ih =>
    intro lo hi hle hlen hfuel hlo hhi
    unfold bsearchLoop
    by_cases hlt : lo < hi
    · simp only [hlt, if_true]
      have hmid : lo + (hi - lo) / 2 < l.length := by omega
      rw [List.getElem?_eq_getElem hmid]
      simp only
      by_cases h0 : f l[lo + (hi - lo) / 2] = 0
      · left
        exact ⟨_, _, by simp [h0], List.getElem?_eq_getElem hmid, h0⟩
      · simp only [h0, if_false]
        by_cases hpos : 0 < f l[lo + (hi - lo) / 2]
        · simp only [hpos, if_true]
          apply ih (lo + (hi - lo) / 2 + 1) hi (by omega) hlen (by omega) _ hhi
          intro i e hie hi2
          obtain ⟨hil, rfl⟩ := List.getElem?_eq_some.mp hie
          by_cases heq : i = lo + (hi - lo) / 2
          · subst heq; exact hpos
          · exact (hidx i _ hil hmid (by omega)).1 hpos
        · simp only [hpos, if_false]
          have hneg : f l[lo + (hi - lo) / 2] < 0 := by omega
          apply ih lo (lo + (hi - lo) / 2) (by omega) (by omega) (by omega) hlo
          intro i e hie hi2
          obtain ⟨hil, rfl⟩ := List.getElem?_eq_some.mp hie
          by_cases heq : i = lo + (hi - lo) / 2
          · subst heq; exact hneg
          · exact (hidx _ i hmid hil (by omega)).2 hneg
    · simp only [hlt, if_false]
      right
      have : lo = hi := by omega
      subst this
      exact ⟨lo, rfl, hlen, hlo, hhi⟩

/-- Inserting the key at an index that separates the elements below it from
those above it keeps a sorted array sorted. -/
theorem insertAt_sorted {α : Type} {cmp : α → α → Int} (h : StrictWeakOrder cmp)
    {l : List α} (hs : SortedBy cmp l) (key : α) (pos : Nat)
    (hlo : ∀ i e, l[i]? = some e → i < pos → 0 < cmp key e)
    (hhi : ∀ i e, l[i]? = some e → pos ≤ i → cmp key e < 0) :
    SortedBy cmp (insertAt l pos key) := by
  have hpw := SortedBy.pairwise h hs
  rw [← List.take_append_drop pos l] at hpw
  obtain ⟨ht, hd, hcross⟩ := List.pairwise_append.mp hpw
  apply List.Pairwise.chain'
  unfold insertAt
  refine List.pairwise_append.mpr ⟨ht, List.pairwise_cons.mpr ⟨?_, hd⟩, ?_⟩
  · intro b hb
    obtain ⟨n, hn⟩ := List.mem_iff_getElem?.mp hb
    rw [List.getElem?_drop] at hn
    have := hhi _ _ hn (by omega)
    omega
  · intro a ha b hb
    rcases List.mem_cons.mp hb with rfl | hb
    · obtain ⟨n, hn⟩ := List.mem_iff_getElem?.mp ha
      rw [List.getElem?_take] at hn
      split at hn
      · rename_i hlt
        exact h.le_of_pos_swap _ _ (hlo _ _ hn hlt)
      · cases hn
    · exact hcross a ha b hb

/-- The search contract for a comparator applied to `key`, on a sorted array. -/
theorem bsearchLoop_contract {α : Type} {cmp : α → α → Int} (h : StrictWeakOrder cmp)
    {l : List α} (hs : SortedBy cmp l) (key : α) :
    ((∃ e ∈ l, cmp key e = 0) →
      ∃ pos e, bsearchLoop l (fun x => cmp key x) l.length 0 l.length = (0, pos) ∧
        l[pos]? = some e ∧ cmp key e = 0) ∧
    ((¬ ∃ e ∈ l, cmp key e = 0) →
      ∃ pos, bsearchLoop l (fun x => cmp key x) l.length 0 l.length = (GIT_ENOTFOUND, pos) ∧
        pos ≤ l.length ∧ SortedBy cmp (insertAt l pos key)) := by
  have hspec := bsearchLoop_spec l (fun x => cmp key x) (SortedBy.key_partition h hs key)
    l.length 0 l.length (Nat.zero_le _) (le_refl _) (by omega)
    (by intro i e _ hi; omega)
    (by
      intro i e hie hi
      obtain ⟨hil, _⟩ := List.getElem?_eq_some.mp hie
      omega)
  constructor
  · rintro ⟨e, he, he0⟩
    rcases hspec with hfound | ⟨pos, _, _, hlo, hhi⟩
    · exact hfound
    · exfalso
      obtain ⟨n, hn⟩ := List.mem_iff_getElem?.mp he
      by_cases hnp : n < pos
      · have := hlo n e hn hnp
        simp only at this
        omega
      · have := hhi n e hn (by omega)
        simp only at this
        omega
  · intro hnone
    rcases hspec with ⟨pos, e, _, hpe, he0⟩ | ⟨pos, hres, hlen, hlo, hhi⟩
    · exfalso
      apply hnone
      exact ⟨e, List.mem_iff_getElem?.mpr ⟨pos, hpe⟩, he0⟩
    · exact ⟨pos, hres, hlen, insertAt_sorted h hs key pos hlo hhi⟩

theorem intCmp_strictWeak : StrictWeakOrder intCmp := by
  constructor
  · intro a b
    unfold intCmp
    omega
  · intro a b c
    unfold intCmp
    omega

/-- C6: for every array sorted under a strict-weak-order comparator and every
key, `git__bsearch_r` and `git__bsearch` return `0` with a position whose
element compares equal to the key if some element compares equal to the key;
otherwise they return `GIT_ENOTFOUND` with a position between `0` and the
array length at which inserting the key keeps the array sorted. On an empty
array they return `GIT_ENOTFOUND` with position `0`. -/
theorem bsearch_contract {α π : Type} (array : List α) (key : α)
    (compare_r : α → α → π → Int) (payload : π)
    (hcmp : StrictWeakOrder (fun a b => compare_r a b payload))
    (hs : SortedBy (fun a b => compare_r a b payload) array) :
    ((∃ e ∈ array, compare_r key e payload = 0) →
      (∃ pos e, git__bsearch_r array key compare_r payload = (0, pos) ∧
        array[pos]? = some e ∧ compare_r key e payload = 0) ∧
      (∃ pos e, git__bsearch array key (fun a b => compare_r a b payload) = (0, pos) ∧
        array[pos]? = some e ∧ compare_r key e payload = 0)) ∧
    ((¬ ∃ e ∈ array, compare_r key e payload = 0) →
      (∃ pos, git__bsearch_r array key compare_r payload = (GIT_ENOTFOUND, pos) ∧
        pos ≤ array.length ∧
        SortedBy (fun a b => compare_r a b payload) (insertAt array pos key)) ∧
      (∃ pos, git__bsearch array key (fun a b => compare_r a b payload)
          = (GIT_ENOTFOUND, pos) ∧
        pos ≤ array.length ∧
        SortedBy (fun a b => compare_r a b payload) (insertAt array pos key))) ∧
    git__bsearch_r ([] : List α) key compare_r payload = (GIT_ENOTFOUND, 0) ∧
    git__bsearch ([] : List α) key (fun a b => compare_r a b payload) = (GIT_ENOTFOUND, 0) := by
  have hc := bsearchLoop_contract hcmp hs key
  refine ⟨fun hex => ⟨hc.1 hex, hc.1 hex⟩, fun hno => ⟨hc.2 hno, hc.2 hno⟩, rfl, rfl⟩

/-- Witness of C6: keys `[1,2,3,5,5,5]`, key `4`: not found, position `3`. -/
theorem bsearch_contract_witness :
    (¬ ∃ e ∈ ([1, 2, 3, 5, 5, 5] : List Int), intCmp 4 e = 0) ∧
    git__bsearch_r ([1, 2, 3, 5, 5, 5] : List Int) 4 (fun a b (_ : Unit) => intCmp a b) ()
      = (GIT_ENOTFOUND, 3) ∧
    git__bsearch ([1, 2, 3, 5, 5, 5] : List Int) 4 intCmp = (GIT_ENOTFOUND, 3) ∧
    (∃ pos, git__bsearch ([1, 2, 3, 5, 5, 5] : List Int) 4 intCmp = (GIT_ENOTFOUND, pos) ∧
      pos ≤ 6 ∧ SortedBy intCmp (insertAt [1, 2, 3, 5, 5, 5] pos 4)) :=
  have hno : ¬ ∃ e ∈ ([1, 2, 3, 5, 5, 5] : List Int), intCmp 4 e = 0 := by decide
  ⟨hno, by decide, by decide,
    ((bsearch_contract ([1, 2, 3, 5, 5, 5] : List Int) 4
      (fun a b (_ : Unit) => intCmp a b) () intCmp_strictWeak
      (by simp [SortedBy, intCmp])).2.1 hno).2⟩

/-! ## Sort -/

theorem insertSorted_perm {α : Type} (cmp : α → α → Int) (x : α) (l : List α) :
    (insertSorted cmp x l).Perm (x :: l) := by
  induction l with
  | nil => exact List.Perm.refl _
  | cons y ys ih =>
    unfold insertSorted
    split
    · exact List.Perm.refl _
    · exact ((List.Perm.cons y ih).trans (List.Perm.swap x y ys))

theorem insertSorted_pairwise {α : Type} {cmp : α → α → Int} (h : StrictWeakOrder cmp)
    (x : α) (l : List α) (hl : l.Pairwise (fun a b => cmp a b ≤ 0)) :
    (insertSorted cmp x l).Pairwise (fun a b => cmp a b ≤ 0) := by
  induction l with
  | nil => simp [insertSorted]
  | cons y ys ih =>
    obtain ⟨hy, hys⟩ := List.pairwise_cons.mp hl
    unfold insertSorted
    split
    · rename_i hxy
      refine List.pairwise_cons.mpr ⟨?_, hl⟩
      intro b hb
      rcases List.mem_cons.mp hb with rfl | hb
      · exact hxy
      · exact h.trans x y b hxy (hy b hb)
    · rename_i hxy
      refine List.pairwise_cons.mpr ⟨?_, ih hys⟩
      intro b hb
      have hb2 := (insertSorted_perm cmp x ys).mem_iff.mp hb
      rcases List.mem_cons.mp hb2 with rfl | hb2
      · rcases h.total b y with h1 | h1
        · exact absurd h1 hxy
        · exact h1
      · exact hy b hb2

theorem insertionFold_spec {α : Type} {cmp : α → α → Int} (h : StrictWeakOrder cmp)
    (l : List α) :
    ∀ acc : List α, acc.Pairwise (fun a b => cmp a b ≤ 0) →
      (l.foldl (fun acc x => insertSorted cmp x acc) acc).Perm (acc ++ l) ∧
      (l.foldl (fun acc x => insertSorted cmp x acc) acc).Pairwise (fun a b => cmp a b ≤ 0) := by
  induction l with
  | nil =>
    intro acc hacc
    simpa using hacc
  | cons x xs ih =>
    intro acc hacc
    obtain ⟨hp, hs⟩ := ih (insertSorted cmp x acc) (insertSorted_pairwise h x acc hacc)
    refine ⟨?_, hs⟩
    simp only [List.foldl_cons]
    refine hp.trans ?_
    refine ((insertSorted_perm cmp x acc).append_right xs).trans ?_
    simpa using (@List.perm_middle _ x acc xs).symm

theorem insertionPass_spec {α : Type} {cmp : α → α → Int} (h : StrictWeakOrder cmp)
    (l : List α) :
    (insertionPass cmp l).Perm l ∧ (insertionPass cmp l).Pairwise (fun a b => cmp a b ≤ 0) := by
  have := insertionFold_spec h l [] List.Pairwise.nil
  simpa [insertionPass] using this

/-- The three groups of a three-way partition hold exactly the elements of the
array. -/
theorem three_way_perm {α : Type} (g : α → Int) (l : List α) :
    (l.filter (fun x => decide (g x < 0)) ++ l.filter (fun x => decide (g x = 0))
      ++ l.filter (fun x => decide (0 < g x))).Perm l := by
  induction l with
  | nil => simp
  | cons x xs ih =>
    rcases lt_trichotomy (g x) 0 with hx | hx | hx
    · have h1 : ¬ g x = 0 := by omega
      have h2 : ¬ 0 < g x := by omega
      simp only [List.filter_cons, hx, h1, h2, decide_True, decide_False, if_true,
        Bool.false_eq_true, if_false, List.cons_append]
      exact List.Perm.cons x ih
    · have h1 : ¬ g x < 0 := by omega
      have h2 : ¬ 0 < g x := by omega
      simp only [List.filter_cons, hx, h1, h2, decide_True, decide_False, if_true,
        Bool.false_eq_true, if_false, List.append_assoc]
      refine List.perm_middle.trans (List.Perm.cons x ?_)
      simpa [List.append_assoc] using ih
    · have h1 : ¬ g x < 0 := by omega
      have h2 : ¬ g x = 0 := by omega
      simp only [List.filter_cons, hx, h1, h2, decide_True, decide_False, if_true,
        Bool.false_eq_true, if_false]
      exact List.perm_middle.trans (List.Perm.cons x ih)

theorem tsortLoop_spec {α : Type} {cmp : α → α → Int} (h : StrictWeakOrder cmp)
    (small : Nat) :
    ∀ (fuel : Nat) (l : List α),
      (tsortLoop cmp small fuel l).Perm l ∧
      (tsortLoop cmp small fuel l).Pairwise (fun a b => cmp a b ≤ 0) := by
  intro fuel
  induction fuel with
  | zero =>
    intro l
    exact insertionPass_spec h l
  | succ fuel ih =>
    intro l
    unfold tsortLoop
    split
    · exact insertionPass_spec h l
    · split
      · exact ⟨List.Perm.refl _, List.Pairwise.nil⟩
      · rename_i p t _
        obtain ⟨hpA, hsA⟩ := ih ((p :: t).filter (fun x => decide (cmp x p < 0)))
        obtain ⟨hpG, hsG⟩ := ih ((p :: t).filter (fun x => decide (0 < cmp x p)))
        have hA : ∀ a ∈ tsortLoop cmp small fuel
            ((p :: t).filter (fun x => decide (cmp x p < 0))), cmp a p < 0 := by
          intro a ha
          have := (List.mem_filter.mp (hpA.mem_iff.mp ha)).2
          simpa using this
        have hG : ∀ a ∈ tsortLoop cmp small fuel
            ((p :: t).filter (fun x => decide (0 < cmp x p))), 0 < cmp a p := by
          intro a ha
          have := (List.mem_filter.mp (hpG.mem_iff.mp ha)).2
          simpa using this
        have hE : ∀ a ∈ (p :: t).filter (fun x => decide (cmp x p = 0)), cmp a p = 0 := by
          intro a ha
          have := (List.mem_filter.mp ha).2
          simpa using this
        constructor
        · exact ((hpA.append_right _).append hpG).trans (three_way_perm (fun x => cmp x p) (p :: t))
        · refine List.pairwise_append.mpr ⟨List.pairwise_append.mpr ⟨hsA, ?_, ?_⟩, hsG, ?_⟩
          · apply List.pairwise_of_forall_mem_list
            intro a ha b hb
            have h1 : cmp a p ≤ 0 := by have := hE a ha; omega
            have h2 : cmp p b ≤ 0 := by have := h.eq_swap b p (hE b hb); omega
            exact h.trans a p b h1 h2
          · intro a ha b hb
            have h1 : cmp a p ≤ 0 := by have := hA a ha; omega
            have h2 : cmp p b ≤ 0 := by have := h.eq_swap b p (hE b hb); omega
            exact h.trans a p b h1 h2
          · intro a ha b hb
            have h1 : cmp a p ≤ 0 := by
              rcases List.mem_append.mp ha with ha | ha
              · have := hA a ha; omega
              · have := hE a ha; omega
            exact h.trans a p b h1 (h.le_of_pos_swap p b (hG b hb))

/-- C7: for every finite array and every strict-weak-order comparator,
`git__tsort_r` and `git__tsort` leave the array as a permutation of its input
in which every adjacent pair `(a, b)` satisfies `cmp(a, b) <= 0`; arrays of
length 0 and 1 are left as they are. -/
theorem tsort_contract {α π : Type} (dst : List α) (cmp : α → α → π → Int) (payload : π)
    (hcmp : StrictWeakOrder (fun a b => cmp a b payload)) :
    (git__tsort_r dst cmp payload).Perm dst ∧
    SortedBy (fun a b => cmp a b payload) (git__tsort_r dst cmp payload) ∧
    (git__tsort dst (fun a b => cmp a b payload)).Perm dst ∧
    SortedBy (fun a b => cmp a b payload) (git__tsort dst (fun a b => cmp a b payload)) ∧
    git__tsort_r ([] : List α) cmp payload = [] ∧
    git__tsort ([] : List α) (fun a b => cmp a b payload) = [] ∧
    (∀ a : α, git__tsort_r [a] cmp payload = [a]) ∧
    (∀ a : α, git__tsort [a] (fun a b => cmp a b payload) = [a]) := by
  have hspec := tsortLoop_spec hcmp TSORT_SMALL dst.length dst
  exact ⟨hspec.1, hspec.2.chain', hspec.1, hspec.2.chain', rfl, rfl, fun _ => rfl, fun _ => rfl⟩

/-- Witness of C7: keys `[5,3,5,1,5,2]` become `[1,2,3,5,5,5]`. -/
theorem tsort_contract_witness :
    git__tsort ([5, 3, 5, 1, 5, 2] : List Int) intCmp = [1, 2, 3, 5, 5, 5] ∧
    (git__tsort ([5, 3, 5, 1, 5, 2] : List Int) intCmp).Perm [5, 3, 5, 1, 5, 2] ∧
    SortedBy intCmp (git__tsort ([5, 3, 5, 1, 5, 2] : List Int) intCmp) :=
  have h := tsort_contract ([5, 3, 5, 1, 5, 2] : List Int)
    (fun a b (_ : Unit) => intCmp a b) () intCmp_strictWeak
  ⟨by decide, h.2.2.1, h.2.2.2.1⟩

/-! ## `git__is_sizet` -/

theorem toOffT_toSizeT (p : Int) (h1 : -9223372036854775808 ≤ p)
    (h2 : p ≤ 9223372036854775807) : toOffT (toSizeT p) = p := by
  unfold toOffT toSizeT
  omega

/-- With 64-bit `size_t` and `git_off_t`, the round trip through `size_t`
gives back every offset, so the function answers "fits" for all of them. -/
theorem is_sizet_always (p : Int) (h1 : -9223372036854775808 ≤ p)
    (h2 : p ≤ 9223372036854775807) : git__is_sizet p = 1 := by
  unfold git__is_sizet
  simp [toOffT_toSizeT p h1 h2]

/-- C8 fails on the code: for the negative offset `-1`, which is outside the
range `0 .. SIZE_MAX` of a `size_t`, `git__is_sizet` returns `1`, not `0`. -/
theorem is_sizet_negative_one : git__is_sizet (-1) = 1 ∧ ¬ (0 ≤ (-1 : Int)) := by
  decide

/-! ## Ledger: the bottom of the `short` range -/

/-- C11, as stated, fails: an unowned object whose refcount is `-32768` is
decremented; the stored refcount becomes the wrapped-around `32767`, and the
machine records nothing (no call is made). -/
theorem dec_underflow_counterexample :
    ((freshMachine (-32768) NULL).mem 8).refcount = -32768 ∧
    ((GIT_REFCOUNT_DEC 8 5 (freshMachine (-32768) NULL)).mem 8).refcount = 32767 ∧
    (GIT_REFCOUNT_DEC 8 5 (freshMachine (-32768) NULL)).calls = [] := by
  decide

/-- C11, amended: for an object whose refcount is `-32768`, the minimum of its
16-bit `short` field, `GIT_REFCOUNT_DEC` signals nothing: its whole effect is
to store the wrapped-around refcount `32767`; the owner and the call log are
as before (no destructor call, since `32767 > 0`). -/
theorem dec_underflow_wraps {F : Type} (m : Machine F) (r : Ptr) (d : F)
    (hc : (m.mem r).refcount = -32768) :
    GIT_REFCOUNT_DEC r d m = m.store r { m.mem r with refcount := 32767 } ∧
    ((GIT_REFCOUNT_DEC r d m).mem r).refcount = 32767 ∧
    ((GIT_REFCOUNT_DEC r d m).mem r).owner = (m.mem r).owner ∧
    (GIT_REFCOUNT_DEC r d m).calls = m.calls := by
  have hs : toShort ((m.mem r).refcount - 1) = 32767 := by
    rw [hc]
    decide
  refine ⟨?_, by rw [dec_refcount, hs], dec_owner m r d, ?_⟩
  · unfold GIT_REFCOUNT_DEC
    simp only [store_mem_same, hs]
    simp
  · rw [dec_calls, hs]
    simp

/-- Witness of amended C11: refcount `-32768`, owner unset. -/
theorem dec_underflow_wraps_witness :
    GIT_REFCOUNT_DEC 8 5 (freshMachine (-32768) NULL)
      = (freshMachine (-32768) NULL).store 8
          { (freshMachine (-32768) NULL).mem 8 with refcount := 32767 } ∧
    ((GIT_REFCOUNT_DEC 8 5 (freshMachine (-32768) NULL)).mem 8).refcount = 32767 ∧
    ((GIT_REFCOUNT_DEC 8 5 (freshMachine (-32768) NULL)).mem 8).owner
      = ((freshMachine (-32768) NULL).mem 8).owner ∧
    (GIT_REFCOUNT_DEC 8 5 (freshMachine (-32768) NULL)).calls
      = (freshMachine (-32768) NULL).calls :=
  dec_underflow_wraps (freshMachine (-32768) NULL) 8 5 (by decide)

/-! ## `git__rotl` -/

/-- The rotation written with the two halves of `v`: the low `32 - s` bits
move up by `s`, the high `s` bits move down. -/
theorem rotl_split (v s : Nat) (hv : v < 4294967296) (hs1 : 1 ≤ s) (hs2 : s ≤ 31) :
    git__rotl v s = 2 ^ s * (v % 2 ^ (32 - s)) + v / 2 ^ (32 - s) ∧
    v / 2 ^ (32 - s) < 2 ^ s ∧
    2 ^ s * (v % 2 ^ (32 - s)) + v / 2 ^ (32 - s) < 4294967296 := by
  have hab : 2 ^ s * 2 ^ (32 - s) = 4294967296 := by
    rw [← pow_add]
    have : s + (32 - s) = 32 := by omega
    rw [this]
    norm_num
  have hb : 0 < 2 ^ (32 - s) := Nat.pow_pos (by norm_num)
  have hhi : v / 2 ^ (32 - s) < 2 ^ s := by
    rw [Nat.div_lt_iff_lt_mul hb, hab]
    exact hv
  have hlo : v % 2 ^ (32 - s) < 2 ^ (32 - s) := Nat.mod_lt _ hb
  have hlt : 2 ^ s * (v % 2 ^ (32 - s)) + v / 2 ^ (32 - s) < 4294967296 := by
    have h1 : 2 ^ s * (v % 2 ^ (32 - s)) + 2 ^ s ≤ 2 ^ s * 2 ^ (32 - s) := by
      have := Nat.mul_le_mul_left (2 ^ s) (Nat.succ_le_of_lt hlo)
      rwa [Nat.mul_succ] at this
    omega
  refine ⟨?_, hhi, hlt⟩
  unfold git__rotl
  rw [Nat.mod_eq_of_lt hv, Nat.shiftLeft_eq, Nat.shiftRight_eq_div_pow]
  have hmod : v * 2 ^ s % 4294967296 = 2 ^ s * (v % 2 ^ (32 - s)) := by
    rw [← hab, Nat.mul_comm v, Nat.mul_mod_mul_left]
  rw [hmod, ← Nat.mul_add_lt_is_or hhi, Nat.mod_eq_of_lt hlt]

/-- C12: for every 32-bit value `v` and every shift `1 <= s <= 31`,
`git__rotl(v, s)` is `((v * 2^s) mod 2^32) + floor(v / 2^(32 - s))`, the left
rotation of `v` by `s` bits, and rotating the result by `32 - s` gives `v`
back. -/
theorem rotl_contract (v s : Nat) (hv : v < 4294967296) (hs1 : 1 ≤ s) (hs2 : s ≤ 31) :
    git__rotl v s = (v * 2 ^ s) % 4294967296 + v / 2 ^ (32 - s) ∧
    git__rotl (git__rotl v s) (32 - s) = v := by
  obtain ⟨h1, hhi, hlt⟩ := rotl_split v s hv hs1 hs2
  have hab : 2 ^ s * 2 ^ (32 - s) = 4294967296 := by
    rw [← pow_add]
    have : s + (32 - s) = 32 := by omega
    rw [this]
    norm_num
  constructor
  · rw [h1, ← hab, Nat.mul_comm v, Nat.mul_mod_mul_left]
  · obtain ⟨h2, _, _⟩ := rotl_split (git__rotl v s) (32 - s) (by rw [h1]; exact hlt)
      (by omega) (by omega)
    have hss : 32 - (32 - s) = s := by omega
    rw [h2, hss, h1]
    have ha : 0 < 2 ^ s := Nat.pow_pos (by norm_num)
    rw [Nat.mul_add_mod, Nat.mod_eq_of_lt hhi, Nat.mul_add_div ha,
      Nat.div_eq_of_lt hhi, Nat.add_zero]
    exact Nat.div_add_mod v (2 ^ (32 - s))

/-- Witness of C12: `0x80000001` rotated by one bit is `3`, and back. -/
theorem rotl_contract_witness :
    git__rotl 2147483649 1 = (2147483649 * 2 ^ 1) % 4294967296 + 2147483649 / 2 ^ (32 - 1) ∧
    git__rotl (git__rotl 2147483649 1) (32 - 1) = 2147483649 :=
  rotl_contract 2147483649 1 (by decide) (by decide) (by decide)

/-! ## `git__fromhex` -/

set_option maxRecDepth 100000 in
/-- Every entry of the table, by its index. -/
theorem from_hex_entries : ∀ i : Fin 256,
    from_hex[i.val]? = some
      (if 48 ≤ (i.val : Int) ∧ (i.val : Int) ≤ 57 then (i.val : Int) - 48
       else if 97 ≤ (i.val : Int) ∧ (i.val : Int) ≤ 102 then 10 + ((i.val : Int) - 97)
       else if 65 ≤ (i.val : Int) ∧ (i.val : Int) ≤ 70 then 10 + ((i.val : Int) - 65)
       else -1) := by
  decide

theorem fromhex_value (h : Int) :
    git__fromhex h = some
      (if 48 ≤ h % 256 ∧ h % 256 ≤ 57 then h % 256 - 48
       else if 97 ≤ h % 256 ∧ h % 256 ≤ 102 then 10 + (h % 256 - 97)
       else if 65 ≤ h % 256 ∧ h % 256 ≤ 70 then 10 + (h % 256 - 65)
       else -1) := by
  have h0 : 0 ≤ h % 256 := Int.emod_nonneg h (by norm_num)
  have h1 : h % 256 < 256 := Int.emod_lt_of_pos h (by norm_num)
  have hn : (h % 256).toNat < 256 := by omega
  have hcast : (((h % 256).toNat : Nat) : Int) = h % 256 := Int.toNat_of_nonneg h0
  have := from_hex_entries ⟨(h % 256).toNat, hn⟩
  simp only [hcast] at this
  exact this

/-- C13: for every `char` value `h`, signed or unsigned, `git__fromhex(h)`
reads the table in bounds and returns the value of the digit whose byte is
`c = (unsigned char) h`: `c - '0'` for `'0'..'9'`, `10 + (c - 'a')` for
`'a'..'f'`, `10 + (c - 'A')` for `'A'..'F'` and `-1` for every other byte; the
result is between `-1` and `15`, and an upper-case hex letter decodes to the
same value as its lower-case form. -/
theorem fromhex_contract (h : Int) :
    git__fromhex h = some
      (if 48 ≤ h % 256 ∧ h % 256 ≤ 57 then h % 256 - 48
       else if 97 ≤ h % 256 ∧ h % 256 ≤ 102 then 10 + (h % 256 - 97)
       else if 65 ≤ h % 256 ∧ h % 256 ≤ 70 then 10 + (h % 256 - 65)
       else -1) ∧
    (∃ v, git__fromhex h = some v ∧ -1 ≤ v ∧ v ≤ 15) ∧
    git__fromhex 65 = git__fromhex 97 ∧ git__fromhex 66 = git__fromhex 98 ∧
    git__fromhex 67 = git__fromhex 99 ∧ git__fromhex 68 = git__fromhex 100 ∧
    git__fromhex 69 = git__fromhex 101 ∧ git__fromhex 70 = git__fromhex 102 := by
  refine ⟨fromhex_value h, ⟨_, fromhex_value h, ?_, ?_⟩, ?_⟩
  · split_ifs <;> omega
  · split_ifs <;> omega
  · simp only [fromhex_value]
    decide

/-! ## `git__size_t_bitmask`, `git__size_t_powerof2` -/

/-- C14 fails on the code: for `v = 2^32 + 1`, within `1 .. 2^63`, the mask is
`2^33 - 2` and not `2^33 - 1`, and `git__size_t_powerof2` returns `2^33 - 1`,
which is no power of two at all (the smallest power of two `>= v` is `2^33`):
the shifts stop at 16, so a top bit above bit 31 does not reach the lowest
bits. -/
theorem size_t_powerof2_high_bit :
    git__size_t_bitmask 4294967297 = 8589934590 ∧
    git__size_t_powerof2 4294967297 = 8589934591 ∧
    ¬ ∃ k : Nat, git__size_t_powerof2 4294967297 = 2 ^ k := by
  have h1 : git__size_t_bitmask 4294967297 = 8589934590 := by decide
  have h2 : git__size_t_powerof2 4294967297 = 8589934591 := by decide
  refine ⟨h1, h2, ?_⟩
  rintro ⟨k, hk⟩
  rw [h2] at hk
  cases k with
  | zero => simp at hk
  | succ k =>
    rw [pow_succ] at hk
    omega

/-- One smearing step `y |= y >> n` doubles the window of bits of `x` that
each bit of `y` collects. -/
theorem smear_step (x y n : Nat)
    (h : ∀ i, y.testBit i = true ↔ ∃ j, j < n ∧ x.testBit (i + j) = true) :
    ∀ i, (y ||| (y >>> n)).testBit i = true ↔ ∃ j, j < n + n ∧ x.testBit (i + j) = true := by
  intro i
  rw [Nat.testBit_lor, Nat.testBit_shiftRight, Bool.or_eq_true, h i, h (n + i)]
  constructor
  · rintro (⟨j, hj, hb⟩ | ⟨j, hj, hb⟩)
    · exact ⟨j, by omega, hb⟩
    · refine ⟨n + j, by omega, ?_⟩
      have : i + (n + j) = n + i + j := by omega
      rw [this]
      exact hb
  · rintro ⟨j, hj, hb⟩
    by_cases hjn : j < n
    · exact Or.inl ⟨j, hjn, hb⟩
    · refine Or.inr ⟨j - n, by omega, ?_⟩
      have : n + i + (j - n) = i + j := by omega
      rw [this]
      exact hb

/-- After the five steps of the source every bit of the result collects the
32 bits of `x` from its own position upwards. -/
theorem smear_window (x : Nat) (i : Nat) :
    ((((((x ||| (x >>> 1)) ||| ((x ||| (x >>> 1)) >>> 2))
      ||| (((x ||| (x >>> 1)) ||| ((x ||| (x >>> 1)) >>> 2)) >>> 4))
      ||| ((((x ||| (x >>> 1)) ||| ((x ||| (x >>> 1)) >>> 2))
        ||| (((x ||| (x >>> 1)) ||| ((x ||| (x >>> 1)) >>> 2)) >>> 4)) >>> 8))
      ||| (((((x ||| (x >>> 1)) ||| ((x ||| (x >>> 1)) >>> 2))
        ||| (((x ||| (x >>> 1)) ||| ((x ||| (x >>> 1)) >>> 2)) >>> 4))
        ||| ((((x ||| (x >>> 1)) ||| ((x ||| (x >>> 1)) >>> 2))
          ||| (((x ||| (x >>> 1)) ||| ((x ||| (x >>> 1)) >>> 2)) >>> 4)) >>> 8))
        >>> 16))).testBit i = true
      ↔ ∃ j, j < 32 ∧ x.testBit (i + j) = true := by
  have h1 : ∀ i, x.testBit i = true ↔ ∃ j, j < 1 ∧ x.testBit (i + j) = true := by
    intro i
    constructor
    · intro h
      exact ⟨0, by omega, h⟩
    · rintro ⟨j, hj, hb⟩
      have : j = 0 := by omega
      subst this
      exact hb
  have h2 := smear_step x _ 1 h1
  have h4 := smear_step x _ 2 h2
  have h8 := smear_step x _ 4 h4
  have h16 := smear_step x _ 8 h8
  exact smear_step x _ 16 h16 i

/-- The mask of `v` in terms of `x = v - 1`, for `v` in `1 .. 2^64 - 1`. -/
theorem bitmask_unfold (v : Nat) (h1 : 1 ≤ v) (h2 : v < 18446744073709551616) (i : Nat) :
    (git__size_t_bitmask v).testBit i = true
      ↔ ∃ j, j < 32 ∧ (v - 1).testBit (i + j) = true := by
  have hx : (v + 18446744073709551616 - 1) % 18446744073709551616 = v - 1 := by omega
  unfold git__size_t_bitmask
  simp only [hx]
  exact smear_window (v - 1) i

/-- Up to `2^32` the two functions do what their names say:
`git__size_t_powerof2(v)` is the smallest power of two `>= v` and
`git__size_t_bitmask(v)` is that power of two minus one. -/
theorem size_t_powerof2_low (v : Nat) (h1 : 1 ≤ v) (h2 : v ≤ 4294967296) :
    ∃ k : Nat, git__size_t_powerof2 v = 2 ^ k ∧ v ≤ 2 ^ k ∧
      (∀ j : Nat, v ≤ 2 ^ j → 2 ^ k ≤ 2 ^ j) ∧
      git__size_t_bitmask v = 2 ^ k - 1 := by
  have hbits := bitmask_unfold v h1 (by omega)
  by_cases hx0 : v - 1 = 0
  · have hm : git__size_t_bitmask v = 0 := by
      apply Nat.eq_of_testBit_eq
      intro i
      rw [Nat.zero_testBit]
      by_contra hne
      have ht : (git__size_t_bitmask v).testBit i = true := by
        cases hb : (git__size_t_bitmask v).testBit i
        · exact absurd hb hne
        · rfl
      obtain ⟨j, _, hb⟩ := (hbits i).mp ht
      rw [hx0, Nat.zero_testBit] at hb
      exact Bool.noConfusion hb
    refine ⟨0, ?_, by omega, ?_, by rw [hm]; rfl⟩
    · unfold git__size_t_powerof2
      rw [hm]
      rfl
    · intro j _
      exact Nat.pow_le_pow_right (by norm_num) (Nat.zero_le j)
  · obtain ⟨k, hk, hkmax⟩ := Nat.exists_most_significant_bit hx0
    have hge : 2 ^ k ≤ v - 1 := Nat.testBit_implies_ge hk
    have hk32 : k < 32 := by
      by_contra hcon
      have : 2 ^ 32 ≤ 2 ^ k := Nat.pow_le_pow_right (by norm_num) (by omega)
      have h32 : (2 : Nat) ^ 32 = 4294967296 := by norm_num
      omega
    have hlt : v - 1 < 2 ^ (k + 1) := by
      apply Nat.lt_pow_two_of_testBit
      intro i hi
      exact hkmax i (by omega)
    have hm : git__size_t_bitmask v = 2 ^ (k + 1) - 1 := by
      apply Nat.eq_of_testBit_eq
      intro i
      rw [Nat.testBit_two_pow_sub_one]
      by_cases hik : i < k + 1
      · rw [decide_eq_true hik]
        apply (hbits i).mpr
        refine ⟨k - i, by omega, ?_⟩
        have : i + (k - i) = k := by omega
        rw [this]
        exact hk
      · rw [decide_eq_false hik]
        cases hb : (git__size_t_bitmask v).testBit i
        · rfl
        · obtain ⟨j, _, hbj⟩ := (hbits i).mp hb
          rw [hkmax (i + j) (by omega)] at hbj
          exact Bool.noConfusion hbj
    have hpow : 2 ^ (k + 1) ≤ 4294967296 := by
      have : 2 ^ (k + 1) ≤ 2 ^ 32 := Nat.pow_le_pow_right (by norm_num) (by omega)
      have h32 : (2 : Nat) ^ 32 = 4294967296 := by norm_num
      omega
    have hpos : 0 < 2 ^ (k + 1) := Nat.pow_pos (by norm_num)
    refine ⟨k + 1, ?_, by omega, ?_, hm⟩
    · unfold git__size_t_powerof2
      rw [hm]
      omega
    · intro j hj
      have hkj : 2 ^ k < 2 ^ j := by omega
      have : k < j := (Nat.pow_lt_pow_iff_right (by norm_num)).mp hkj
      exact Nat.pow_le_pow_right (by norm_num) (by omega)

/-! ## `git__ishex` -/

theorem readChar_of_lt (str : List Int) (i : Nat) (h : i < str.length) :
    readChar str i = some (str.get ⟨i, h⟩) := by
  unfold readChar
  rw [if_pos h]
  exact List.getElem?_eq_getElem h

theorem readChar_length (str : List Int) : readChar str str.length = some 0 := by
  unfold readChar
  simp

/-- The table lookup is negative exactly on the bytes that are not hex
digits. -/
theorem fromhex_sign (c : Int) :
    ∃ v, git__fromhex c = some v ∧ (v < 0 ↔ ¬ isHexChar (c % 256)) := by
  refine ⟨_, fromhex_value c, ?_⟩
  unfold isHexChar
  split_ifs <;> omega

theorem ishexLoop_succ (str : List Int) (fuel i : Nat) :
    git__ishexLoop str (fuel + 1) i =
      if i < str.length then
        match readChar str i with
        | none => none
        | some c =>
          match git__fromhex c with
          | none => none
          | some v =>
            if v < 0 then some 0
            else git__ishexLoop str fuel ((i + 1) % 4294967296)
      else some 1 := rfl

/-- On a string shorter than `2^32` characters the loop, started at `i` with
enough iterations left, returns: `1` if every character from `i` on is a hex
digit, `0` if one of them is not. -/
theorem ishexLoop_short (str : List Int) (hlen : str.length < 4294967296) :
    ∀ (fuel i : Nat), i ≤ str.length → str.length - i < fuel →
      ((∀ j (hj : j < str.length), i ≤ j → isHexChar (str.get ⟨j, hj⟩ % 256)) →
        git__ishexLoop str fuel i = some 1) ∧
      ((∃ j, ∃ hj : j < str.length, i ≤ j ∧ ¬ isHexChar (str.get ⟨j, hj⟩ % 256)) →
        git__ishexLoop str fuel i = some 0) := by
  intro fuel
  induction fuel with
  | zero =>
    intro i _ hf
    omega
  | succ fuel ih =>
    intro i hi hf
    rw [ishexLoop_succ]
    by_cases hlt : i < str.length
    · rw [if_pos hlt, readChar_of_lt str i hlt]
      obtain ⟨v, hv, hsign⟩ := fromhex_sign (str.get ⟨i, hlt⟩)
      simp only [hv]
      have hnext : (i + 1) % 4294967296 = i + 1 := by omega
      rw [hnext]
      obtain ⟨ih1, ih0⟩ := ih (i + 1) (by omega) (by omega)
      constructor
      · intro hall
        have hnn : ¬ v < 0 := fun h => (hsign.mp h) (hall i hlt (le_refl _))
        rw [if_neg hnn]
        exact ih1 (fun j hj hij => hall j hj (by omega))
      · rintro ⟨j, hj, hij, hbad⟩
        by_cases hv0 : v < 0
        · rw [if_pos hv0]
        · rw [if_neg hv0]
          apply ih0
          refine ⟨j, hj, ?_, hbad⟩
          by_contra hcon
          have : j = i := by omega
          subst this
          exact hv0 (hsign.mpr hbad)
    · rw [if_neg hlt]
      constructor
      · intro _
        rfl
      · rintro ⟨j, hj, hij, _⟩
        omega

/-- On strings shorter than `2^32` characters `git__ishex` returns, and it
returns `1` exactly when every character before the terminator is one of
`0-9`, `a-f`, `A-F` (so `1` for the empty string), `0` otherwise. -/
theorem ishex_short (str : List Int) (hlen : str.length < 4294967296) (fuel : Nat)
    (hfuel : str.length < fuel) :
    ((∀ c ∈ str, isHexChar (c % 256)) → git__ishex str fuel = some 1) ∧
    ((∃ c ∈ str, ¬ isHexChar (c % 256)) → git__ishex str fuel = some 0) := by
  obtain ⟨h1, h0⟩ := ishexLoop_short str hlen fuel 0 (Nat.zero_le _) (by omega)
  constructor
  · intro hall
    exact h1 (fun j hj _ => hall _ (List.get_mem str j hj))
  · rintro ⟨c, hc, hbad⟩
    obtain ⟨n, hn⟩ := List.mem_iff_get.mp hc
    subst hn
    exact h0 ⟨n.val, n.isLt, Nat.zero_le _, hbad⟩

theorem hexRun_length (n : Nat) : (List.replicate n (48 : Int) ++ [103]).length = n + 1 := by
  rw [List.length_append, List.length_replicate]
  rfl

theorem hexRun_read (n i : Nat) (h : i < n) :
    readChar (List.replicate n (48 : Int) ++ [103]) i = some 48 := by
  unfold readChar
  rw [hexRun_length, if_pos (by omega),
    List.getElem?_append_left (by rw [List.length_replicate]; exact h),
    List.getElem?_replicate, if_pos h]

theorem hexRun_mem (n : Nat) (c : Int) (hc : c ∈ List.replicate n (48 : Int) ++ [103]) :
    c = 48 ∨ c = 103 := by
  rcases List.mem_append.mp hc with h | h
  · exact Or.inl (List.eq_of_mem_replicate h)
  · exact Or.inr (List.mem_singleton.mp h)

/-- On a run of `n >= 2^32` characters `'0'` followed by `'g'` the counter
never leaves `0 .. 2^32 - 1`, where every character is `'0'`: no number of
iterations makes the loop return. -/
theorem ishexLoop_hexRun (n : Nat) (hn : 4294967296 ≤ n) (fuel : Nat) :
    ∀ i, i < 4294967296 →
      git__ishexLoop (List.replicate n (48 : Int) ++ [103]) fuel i = none := by
  induction fuel with
  | zero =>
    intro i _
    rfl
  | succ fuel ih =>
    intro i hi
    rw [ishexLoop_succ, hexRun_length, if_pos (by omega), hexRun_read n i (by omega)]
    have h48 : git__fromhex 48 = some 0 := by
      rw [fromhex_value]
      decide
    simp only [h48]
    rw [if_neg (by decide)]
    exact ih _ (Nat.mod_lt _ (by norm_num))

/-- C15 fails on the code: the string of `2^32` characters `'0'` followed by
`'g'` is NUL-terminated (it has no zero character) and holds a character that
is not a hex digit, so the answer should be `0`; the 32-bit counter `i` wraps
to `0` before it reaches the `'g'`, and the loop never returns, whatever the
number of iterations allowed. -/
theorem ishex_long_never_returns :
    (∀ c ∈ longHexString, c ≠ 0) ∧
    (∃ c ∈ longHexString, ¬ isHexChar (c % 256)) ∧
    (∀ fuel : Nat, git__ishex longHexString fuel = none) := by
  refine ⟨?_, ⟨103, ?_, ?_⟩, ?_⟩
  · intro c hc
    rcases hexRun_mem 4294967296 c hc with h | h <;> omega
  · exact List.mem_append_right _ (List.mem_singleton.mpr rfl)
  · unfold isHexChar
    omega
  · intro fuel
    exact ishexLoop_hexRun 4294967296 (le_refl _) fuel 0 (by norm_num)

/-! ## `git__next_line` -/

theorem skipText_succ (str : List Int) (fuel p : Nat) :
    nextLineSkipText str (fuel + 1) p =
      match readChar str p with
      | none => none
      | some c => if c ≠ 0 ∧ c ≠ 10 then nextLineSkipText str fuel (p + 1) else some p := rfl

theorem skipBreaks_succ (str : List Int) (fuel p : Nat) :
    nextLineSkipBreaks str (fuel + 1) p =
      match readChar str p with
      | none => none
      | some c => if c = 10 ∨ c = 13 then nextLineSkipBreaks str fuel (p + 1) else some p := rfl

theorem getElem?_of_lt (str : List Int) (i : Nat) (h : i < str.length) :
    str[i]? = some (str.get ⟨i, h⟩) :=
  List.getElem?_eq_getElem h

/-- The first loop stops, inside the string, at the first `'\n'` at or after
its start, or at the terminator if there is none. -/
theorem skipText_spec (str : List Int) (hz : ∀ c ∈ str, c ≠ 0) :
    ∀ (fuel p : Nat), p ≤ str.length → str.length - p < fuel →
      ∃ q, nextLineSkipText str fuel p = some q ∧ p ≤ q ∧ q ≤ str.length ∧
        (∀ i, p ≤ i → i < q → str[i]? ≠ some 10) ∧
        (q = str.length ∨ str[q]? = some 10) := by
  intro fuel
  induction fuel with
  | zero =>
    intro p _ hf
    omega
  | succ fuel ih =>
    intro p hp hf
    rw [skipText_succ]
    by_cases hlt : p < str.length
    · rw [readChar_of_lt str p hlt]
      simp only
      have hnz : str.get ⟨p, hlt⟩ ≠ 0 := hz _ (List.get_mem str p hlt)
      by_cases hnl : str.get ⟨p, hlt⟩ = 10
      · rw [if_neg (by rw [hnl]; simp)]
        refine ⟨p, rfl, le_refl _, hp, ?_, Or.inr ?_⟩
        · intro i h1 h2
          omega
        · rw [getElem?_of_lt str p hlt, hnl]
      · rw [if_pos ⟨hnz, hnl⟩]
        obtain ⟨q, hq, hpq, hql, hno, hstop⟩ := ih (p + 1) (by omega) (by omega)
        refine ⟨q, hq, by omega, hql, ?_, hstop⟩
        intro i h1 h2
        by_cases hip : i = p
        · subst hip
          rw [getElem?_of_lt str i hlt]
          intro hcon
          exact hnl (Option.some.inj hcon)
        · exact hno i (by omega) h2
    · have hpe : p = str.length := by omega
      subst hpe
      rw [readChar_length]
      simp only
      rw [if_neg (by simp)]
      refine ⟨str.length, rfl, le_refl _, le_refl _, ?_, Or.inl rfl⟩
      intro i h1 h2
      omega

/-- The second loop stops, at the terminator at the latest, at the first
character at or after its start that is neither `'\n'` nor `'\r'`. -/
theorem skipBreaks_spec (str : List Int) :
    ∀ (fuel p : Nat), p ≤ str.length → str.length - p < fuel →
      ∃ q, nextLineSkipBreaks str fuel p = some q ∧ p ≤ q ∧ q ≤ str.length ∧
        (∀ i, p ≤ i → i < q → str[i]? = some 10 ∨ str[i]? = some 13) ∧
        (∃ c, readChar str q = some c ∧ c ≠ 10 ∧ c ≠ 13) := by
  intro fuel
  induction fuel with
  | zero =>
    intro p _ hf
    omega
  | succ fuel ih =>
    intro p hp hf
    rw [skipBreaks_succ]
    by_cases hlt : p < str.length
    · rw [readChar_of_lt str p hlt]
      simp only
      by_cases hbr : str.get ⟨p, hlt⟩ = 10 ∨ str.get ⟨p, hlt⟩ = 13
      · rw [if_pos hbr]
        obtain ⟨q, hq, hpq, hql, hall, hstop⟩ := ih (p + 1) (by omega) (by omega)
        refine ⟨q, hq, by omega, hql, ?_, hstop⟩
        intro i h1 h2
        by_cases hip : i = p
        · subst hip
          rw [getElem?_of_lt str i hlt]
          rcases hbr with h | h
          · exact Or.inl (by rw [h])
          · exact Or.inr (by rw [h])
        · exact hall i (by omega) h2
      · rw [if_neg hbr]
        refine ⟨p, rfl, le_refl _, hp, ?_, ⟨_, readChar_of_lt str p hlt, ?_, ?_⟩⟩
        · intro i h1 h2
          omega
        · exact fun h => hbr (Or.inl h)
        · exact fun h => hbr (Or.inr h)
    · have hpe : p = str.length := by omega
      subst hpe
      rw [readChar_length]
      simp only
      rw [if_neg (by simp)]
      refine ⟨str.length, rfl, le_refl _, le_refl _, ?_, ⟨0, readChar_length str, by simp, by simp⟩⟩
      intro i h1 h2
      omega

/-- C16: for every NUL-terminated string (characters `str`, none of them
zero, then the terminator), `git__next_line` returns an offset `p` with
`p <= strlen`, reading no character past the terminator, such that `s[p]` is
neither `'\n'` nor `'\r'`; `p = strlen` when the string has no `'\n'`;
otherwise, with `j` the index of the first `'\n'`, `p` is after `j` and every
character from `j` up to `p` is `'\n'` or `'\r'`, so `p` is the first index
after the first `'\n'` whose character is neither (the terminator's index if
there is no such character). -/
theorem next_line_contract (str : List Int) (hz : ∀ c ∈ str, c ≠ 0) :
    ∃ p, git__next_line str = some p ∧ p ≤ str.length ∧
      (∃ c, readChar str p = some c ∧ c ≠ 10 ∧ c ≠ 13) ∧
      ((10 : Int) ∉ str → p = str.length) ∧
      (∀ j, str[j]? = some 10 → (∀ i, i < j → str[i]? ≠ some 10) →
        j < p ∧ ∀ i, j ≤ i → i < p → str[i]? = some 10 ∨ str[i]? = some 13) := by
  obtain ⟨q, hq, _, hql, hno, hstop⟩ :=
    skipText_spec str hz (str.length + 1) 0 (Nat.zero_le _) (by omega)
  obtain ⟨p, hp, hqp, hpl, hall, hend⟩ :=
    skipBreaks_spec str (str.length + 1) q hql (by omega)
  refine ⟨p, ?_, hpl, hend, ?_, ?_⟩
  · unfold git__next_line
    rw [hq]
    exact hp
  · intro hnone
    rcases hstop with h | h
    · omega
    · exact absurd (List.mem_iff_getElem?.mpr ⟨q, h⟩) hnone
  · intro j hj hfirst
    obtain ⟨hjl, hjv⟩ := List.getElem?_eq_some.mp hj
    have hqj : q = j := by
      rcases hstop with h | h
      · have := hno j (Nat.zero_le _) (by omega)
        exact absurd hj this
      · by_contra hne
        rcases Nat.lt_or_gt_of_ne hne with hlt | hgt
        · exact hfirst q hlt h
        · exact hno j (Nat.zero_le _) hgt hj
    subst hqj
    constructor
    · by_contra hcon
      have hpq : p = q := by omega
      obtain ⟨c, hc, hc10, _⟩ := hend
      rw [hpq, readChar_of_lt str q hjl] at hc
      rw [getElem?_of_lt str q hjl] at hj
      rw [Option.some.inj hj] at hc
      exact hc10 (Option.some.inj hc).symm
    · exact hall

/-- Witness of C16: in `"a\n\r\nb"` the next line starts at offset 4. -/
theorem next_line_contract_witness :
    git__next_line [97, 10, 13, 10, 98] = some 4 ∧
    (∃ p, git__next_line [97, 10, 13, 10, 98] = some p ∧ p ≤ [97, 10, 13, 10, (98 : Int)].length ∧
      (∃ c, readChar [97, 10, 13, 10, 98] p = some c ∧ c ≠ 10 ∧ c ≠ 13) ∧
      ((10 : Int) ∉ [97, 10, 13, 10, (98 : Int)] → p = [97, 10, 13, 10, (98 : Int)].length) ∧
      (∀ j, [97, 10, 13, 10, (98 : Int)][j]? = some 10 →
        (∀ i, i < j → [97, 10, 13, 10, (98 : Int)][i]? ≠ some 10) →
        j < p ∧ ∀ i, j ≤ i → i < p →
          [97, 10, 13, 10, (98 : Int)][i]? = some 10 ∨
          [97, 10, 13, 10, (98 : Int)][i]? = some 13)) :=
  ⟨by decide, next_line_contract [97, 10, 13, 10, 98] (by decide)⟩

end Libgit2
